import Mathlib

/-!
Verification of the goschtalt yaml-encoder (`encoder.go`).

Modelling conventions:

* Go strings and byte slices are modelled as `List Nat`, one entry per byte.
  This is exact: a Go string is a byte sequence, `[]byte(s)` and `string(b)`
  are identity on the bytes, and the byte-wise reading of `determineStyle`'s
  rune loop sets exactly the same flags as the rune-wise one (every rune above
  0x7F consists solely of bytes above 0x7F, and all the special characters
  tested are single-byte).  Well-formedness (each byte `< 256`) appears as a
  hypothesis where it matters.
* `encoding/base32` (`StdEncoding`) is modelled bit-wise: bytes are laid out
  MSB-first, grouped into 5-bit groups (zero-padded), mapped through the
  standard alphabet `A..Z2..7`, and right-padded with `'='` (61) to a multiple
  of 8 characters; decoding strips the padding, maps characters back and keeps
  the full 8-bit groups.  This is exactly the value-level behaviour of the Go
  encoder and of its decoder on encoder outputs.
* `gopkg.in/yaml.v3` is an external collaborator: its node type is mirrored by
  `YNode` (only the fields the repository uses), `yml.Marshal` is an abstract
  parameter `marshal`, and the scalar-encoding primitive `n.Encode(v)` is an
  abstract parameter `prim` which can succeed, return an error value, or
  panic (`PrimOutcome`).
* `meta.Object` of the goschtalt collaborator is, following the spec, a tagged
  union over scalar / sequence / mapping, carrying the origin string that
  `OriginString()` would produce.
-/

/-- Go strings and byte slices: a list of bytes. -/
abbrev GoStr := List Nat

/-! ## Bit-level machinery for base32 -/

/-- Value of a bit list, most significant bit first. -/
def bitsToNat (bs : List Bool) : Nat :=
  bs.foldl (fun a b => 2 * a + (if b then 1 else 0)) 0

/-- The `k` low bits of `n`, most significant first. -/
def natToBits : Nat → Nat → List Bool
  | 0, _ => []
  | k + 1, n => natToBits k (n / 2) ++ [decide (n % 2 = 1)]

/-- Bytes to their bit stream, each byte giving 8 bits MSB-first. -/
def bytesToBits (bs : List Nat) : List Bool :=
  bs.foldr (fun b acc => natToBits 8 b ++ acc) []

/-- Group a bit stream into 5-bit values, zero-padding the final group,
exactly as the base32 encoder consumes its input. -/
def toGroups5 : List Bool → List Nat
  | [] => []
  | b0 :: b1 :: b2 :: b3 :: b4 :: rest =>
      bitsToNat [b0, b1, b2, b3, b4] :: toGroups5 rest
  | bs => [bitsToNat (bs ++ List.replicate (5 - bs.length) false)]

/-- Bit stream of a list of 5-bit groups. -/
def groupsToBits (gs : List Nat) : List Bool :=
  gs.foldr (fun g acc => natToBits 5 g ++ acc) []

/-- Collect the full 8-bit groups of a bit stream into bytes, dropping a
trailing partial group, exactly as the base32 decoder produces output. -/
def toBytes8 : List Bool → List Nat
  | b0 :: b1 :: b2 :: b3 :: b4 :: b5 :: b6 :: b7 :: rest =>
      bitsToNat [b0, b1, b2, b3, b4, b5, b6, b7] :: toBytes8 rest
  | _ => []

/-! ## The base32 standard encoding (Go `encoding/base32`, `StdEncoding`) -/

/-- The standard base32 alphabet "ABCDEFGHIJKLMNOPQRSTUVWXYZ234567" as bytes. -/
def b32alphabet : List Nat :=
  [65, 66, 67, 68, 69, 70, 71, 72, 73, 74, 75, 76, 77, 78, 79, 80, 81, 82,
   83, 84, 85, 86, 87, 88, 89, 90, 50, 51, 52, 53, 54, 55]

/-- Alphabet byte of a 5-bit value. -/
def valToByte (v : Nat) : Nat := b32alphabet.getD v 65

/-- Inverse of `valToByte`; `none` on a byte outside the alphabet. -/
def byteToVal (b : Nat) : Option Nat := b32alphabet.findIdx? (fun x => x == b)

/-- Number of `'='` padding characters the standard encoding appends, as a
function of `length % 5` (Go pads each final partial 5-byte chunk to 8
characters). -/
def padLen (r : Nat) : Nat := [0, 6, 4, 3, 1].getD r 0

/-- Model of `base32.StdEncoding.EncodeToString` on bytes. -/
def base32encode (bs : List Nat) : List Nat :=
  (toGroups5 (bytesToBits bs)).map valToByte ++
    List.replicate (padLen (bs.length % 5)) 61

/-- Drop the trailing run of `'='` (61) bytes. -/
def stripPad (l : List Nat) : List Nat :=
  (l.reverse.dropWhile (fun x => x == 61)).reverse

/-- Map bytes back to 5-bit values, failing on any byte outside the
alphabet. -/
def mapVals : List Nat → Option (List Nat)
  | [] => some []
  | b :: rest =>
    match byteToVal b with
    | none => none
    | some v =>
      match mapVals rest with
      | none => none
      | some vs => some (v :: vs)

/-- Model of `base32.StdEncoding.DecodeString` on the inputs the repository
feeds it: strip the padding, map the characters back through the alphabet
(failing on a foreign byte, as Go fails with a `CorruptInputError`), and keep
the full bytes of the resulting bit stream. -/
def base32decode (l : List Nat) : Option (List Nat) :=
  match mapVals (stripPad l) with
  | none => none
  | some vs => some (toBytes8 (groupsToBits vs))

/-! ## The comment codec (`encodeComment` / `decodeComment`) -/

/-- The bytes of the sentinel string "unknown". -/
def unknownStr : GoStr := [117, 110, 107, 110, 111, 119, 110]

/-- Model of `encodeComment`: substitute "unknown" for the empty string, then
base32-encode. -/
def encodeComment (s : GoStr) : GoStr :=
  base32encode (if s.length = 0 then unknownStr else s)

/-- Model of `decodeComment`: base32-decode, `none` on failure. -/
def decodeComment (s : GoStr) : Option GoStr := base32decode s

/-! ## Round-trip lemmas for the codec -/

theorem bitsToNat_append_bit (l : List Bool) (b : Bool) :
    bitsToNat (l ++ [b]) = 2 * bitsToNat l + (if b then 1 else 0) := by
  simp [bitsToNat, List.foldl_append]

theorem natToBits_length (k n : Nat) : (natToBits k n).length = k := by
  induction k generalizing n with
  | zero => rfl
  | succ k ih => simp [natToBits, ih]

theorem bitsToNat_natToBits (k n : Nat) :
    bitsToNat (natToBits k n) = n % 2 ^ k := by
  induction k generalizing n with
  | zero => simp [natToBits, bitsToNat, Nat.mod_one]
  | succ k ih =>
    rw [natToBits, bitsToNat_append_bit, ih]
    have h2 : n % 2 ^ (k + 1) = n % 2 + 2 * (n / 2 % 2 ^ k) := by
      rw [pow_succ, mul_comm (2 ^ k) 2, Nat.mod_mul]
    have hb : (if decide (n % 2 = 1) = true then 1 else 0) = n % 2 := by
      rcases Nat.mod_two_eq_zero_or_one n with h | h <;> simp [h]
    omega

theorem bitsToNat_lt (l : List Bool) : bitsToNat l < 2 ^ l.length := by
  induction l using List.reverseRecOn with
  | nil => simp [bitsToNat]
  | append_singleton xs b ih =>
    rw [bitsToNat_append_bit]
    simp only [List.length_append, List.length_singleton]
    have : 2 ^ (xs.length + 1) = 2 * 2 ^ xs.length := by ring
    rcases b <;> simp <;> omega

theorem natToBits_bitsToNat (l : List Bool) :
    natToBits l.length (bitsToNat l) = l := by
  induction l using List.reverseRecOn with
  | nil => rfl
  | append_singleton xs b ih =>
    rw [bitsToNat_append_bit]
    simp only [List.length_append, List.length_singleton]
    rw [natToBits]
    have hbit : (if b then 1 else 0) ≤ 1 := by rcases b <;> simp
    have hdiv : (2 * bitsToNat xs + (if b then 1 else 0)) / 2 = bitsToNat xs := by
      omega
    have hmod : (2 * bitsToNat xs + (if b then 1 else 0)) % 2 =
        (if b then 1 else 0) := by omega
    rw [hdiv, hmod, ih]
    rcases b <;> simp

theorem natToBits5 (l : List Bool) (h : l.length = 5) :
    natToBits 5 (bitsToNat l) = l := by
  rw [← h]; exact natToBits_bitsToNat l

theorem toGroups5_bits (bits : List Bool) :
    ∃ p, p < 5 ∧ groupsToBits (toGroups5 bits) = bits ++ List.replicate p false := by
  induction bits using toGroups5.induct with
  | case1 => exact ⟨0, by simp, by simp [toGroups5, groupsToBits]⟩
  | case2 b0 b1 b2 b3 b4 rest ih =>
    obtain ⟨p, hp, h⟩ := ih
    refine ⟨p, hp, ?_⟩
    rw [toGroups5]
    show natToBits 5 (bitsToNat [b0, b1, b2, b3, b4]) ++ groupsToBits (toGroups5 rest) = _
    have h5 : natToBits 5 (bitsToNat [b0, b1, b2, b3, b4]) = [b0, b1, b2, b3, b4] := by
      have := natToBits_bitsToNat [b0, b1, b2, b3, b4]
      simpa using this
    rw [h5, h]
    simp
  | case3 bs h1 h2 =>
    rcases bs with _ | ⟨a, _ | ⟨b, _ | ⟨c, _ | ⟨d, _ | ⟨e, t⟩⟩⟩⟩⟩
    · exact absurd rfl h1
    case cons.cons.cons.cons.cons => exact absurd rfl (h2 a b c d e t)
    · have h5 := natToBits5 ([a] ++ List.replicate 4 false) (by simp)
      exact ⟨4, by omega, by simp [toGroups5, groupsToBits, List.replicate] at h5 ⊢; simp [h5]⟩
    · have h5 := natToBits5 ([a, b] ++ List.replicate 3 false) (by simp)
      exact ⟨3, by omega, by simp [toGroups5, groupsToBits, List.replicate] at h5 ⊢; simp [h5]⟩
    · have h5 := natToBits5 ([a, b, c] ++ List.replicate 2 false) (by simp)
      exact ⟨2, by omega, by simp [toGroups5, groupsToBits, List.replicate] at h5 ⊢; simp [h5]⟩
    · have h5 := natToBits5 ([a, b, c, d] ++ List.replicate 1 false) (by simp)
      exact ⟨1, by omega, by simp [toGroups5, groupsToBits, List.replicate] at h5 ⊢; simp [h5]⟩

theorem toBytes8_short (l : List Bool) (h : l.length < 8) : toBytes8 l = [] := by
  rcases l with _ | ⟨a, _ | ⟨b, _ | ⟨c, _ | ⟨d, _ | ⟨e, _ | ⟨f, _ | ⟨g, _ | ⟨i, t⟩⟩⟩⟩⟩⟩⟩⟩ <;>
    first
      | rfl
      | (exfalso; simp at h; omega)

theorem toBytes8_bytesToBits (bs : List Nat) (junk : List Bool)
    (hb : ∀ b ∈ bs, b < 256) (hj : junk.length < 8) :
    toBytes8 (bytesToBits bs ++ junk) = bs := by
  induction bs with
  | nil => simpa [bytesToBits] using toBytes8_short junk hj
  | cons x xs ih =>
    have hx : x < 256 := hb x (by simp)
    have hxs : ∀ b ∈ xs, b < 256 := fun b hbm => hb b (by simp [hbm])
    have hlen := natToBits_length 8 x
    rcases hnb : natToBits 8 x with _ | ⟨a0, _ | ⟨a1, _ | ⟨a2, _ | ⟨a3, _ | ⟨a4, _ | ⟨a5,
        _ | ⟨a6, _ | ⟨a7, t⟩⟩⟩⟩⟩⟩⟩⟩ <;>
      rw [hnb] at hlen <;> simp at hlen
    subst hlen
    have hstream : bytesToBits (x :: xs) ++ junk =
        a0 :: a1 :: a2 :: a3 :: a4 :: a5 :: a6 :: a7 :: (bytesToBits xs ++ junk) := by
      show (natToBits 8 x ++ bytesToBits xs) ++ junk = _
      rw [hnb]; simp
    rw [hstream, toBytes8]
    have hval : bitsToNat [a0, a1, a2, a3, a4, a5, a6, a7] = x := by
      have h1 : bitsToNat (natToBits 8 x) = x % 2 ^ 8 := bitsToNat_natToBits 8 x
      rw [hnb] at h1
      rw [h1]
      exact Nat.mod_eq_of_lt (lt_of_lt_of_le hx (by norm_num))
    rw [hval, ih hxs]

theorem toGroups5_lt (bits : List Bool) : ∀ g ∈ toGroups5 bits, g < 32 := by
  induction bits using toGroups5.induct with
  | case1 => simp [toGroups5]
  | case2 b0 b1 b2 b3 b4 rest ih =>
    intro g hg
    rw [toGroups5] at hg
    rcases List.mem_cons.mp hg with h | h
    · subst h
      have := bitsToNat_lt [b0, b1, b2, b3, b4]
      simpa using this
    · exact ih g h
  | case3 bs h1 h2 =>
    intro g hg
    rcases bs with _ | ⟨a, _ | ⟨b, _ | ⟨c, _ | ⟨d, _ | ⟨e, t⟩⟩⟩⟩⟩
    · exact absurd rfl h1
    case cons.cons.cons.cons.cons => exact absurd rfl (h2 a b c d e t)
    all_goals
      simp [toGroups5] at hg
      subst hg
      exact lt_of_lt_of_le (bitsToNat_lt _) (by simp [List.replicate])

theorem valToByte_mem (v : Nat) (h : v < 32) : valToByte v ∈ b32alphabet := by
  interval_cases v <;> decide

theorem byteToVal_valToByte (v : Nat) (h : v < 32) : byteToVal (valToByte v) = some v := by
  interval_cases v <;> decide

theorem alphabet_ne_pad : ∀ x ∈ b32alphabet, x ≠ 61 ∧ x ≠ 35 ∧ x ≠ 10 ∧ x ≠ 13 := by
  decide

theorem mapVals_map_valToByte (gs : List Nat) (h : ∀ g ∈ gs, g < 32) :
    mapVals (gs.map valToByte) = some gs := by
  induction gs with
  | nil => rfl
  | cons g gs ih =>
    have hg : g < 32 := h g (by simp)
    have hgs : ∀ x ∈ gs, x < 32 := fun x hx => h x (by simp [hx])
    simp only [List.map_cons, mapVals, byteToVal_valToByte g hg, ih hgs]

theorem stripPad_append (l : List Nat) (k : Nat) (h : ∀ x ∈ l, x ≠ 61) :
    stripPad (l ++ List.replicate k 61) = l := by
  unfold stripPad
  rw [List.reverse_append, List.reverse_replicate, List.dropWhile_append]
  have h1 : List.dropWhile (fun x => x == 61) (List.replicate k 61) = [] := by
    induction k with
    | zero => rfl
    | succ k ihk => simp [List.replicate, List.dropWhile]
  rw [h1]
  have h2 : List.dropWhile (fun x => x == 61) l.reverse = l.reverse := by
    rcases hr : l.reverse with _ | ⟨a, t⟩
    · rfl
    · have ha : a ∈ l := by
        have : a ∈ l.reverse := by rw [hr]; simp
        simpa using this
      rw [List.dropWhile_cons]
      simp [h a ha]
  simp [h2]

theorem base32encode_mem (bs : List Nat) :
    ∀ x ∈ base32encode bs, x ∈ b32alphabet ∨ x = 61 := by
  intro x hx
  unfold base32encode at hx
  rcases List.mem_append.mp hx with h | h
  · obtain ⟨g, hg, hgx⟩ := List.mem_map.mp h
    exact Or.inl (hgx ▸ valToByte_mem g (toGroups5_lt _ g hg))
  · exact Or.inr (List.eq_of_mem_replicate h)

theorem base32encode_no_pad_bytes (bs : List Nat) :
    ∀ x ∈ (toGroups5 (bytesToBits bs)).map valToByte, x ≠ 61 := by
  intro x hx
  obtain ⟨g, hg, hgx⟩ := List.mem_map.mp hx
  have := alphabet_ne_pad _ (hgx ▸ valToByte_mem g (toGroups5_lt _ g hg))
  exact this.1

theorem bytesToBits_length (bs : List Nat) : (bytesToBits bs).length = 8 * bs.length := by
  induction bs with
  | nil => rfl
  | cons x xs ih =>
    show (natToBits 8 x ++ bytesToBits xs).length = _
    simp [natToBits_length, ih]
    omega

theorem base32_roundtrip (bs : List Nat) (hb : ∀ b ∈ bs, b < 256) :
    base32decode (base32encode bs) = some bs := by
  unfold base32decode base32encode
  rw [stripPad_append _ _ (base32encode_no_pad_bytes bs)]
  rw [mapVals_map_valToByte _ (toGroups5_lt _)]
  show some (toBytes8 (groupsToBits (toGroups5 (bytesToBits bs)))) = some bs
  obtain ⟨p, hp, hbits⟩ := toGroups5_bits (bytesToBits bs)
  rw [hbits]
  have hrepl : (List.replicate p false).length < 8 := by simp; omega
  rw [toBytes8_bytesToBits bs _ hb hrepl]

theorem toGroups5_ne_nil (bits : List Bool) (h : bits ≠ []) : toGroups5 bits ≠ [] := by
  rcases bits with _ | ⟨a, _ | ⟨b, _ | ⟨c, _ | ⟨d, _ | ⟨e, t⟩⟩⟩⟩⟩
  · exact absurd rfl h
  all_goals simp [toGroups5]

theorem base32encode_ne_nil (bs : List Nat) (h : bs ≠ []) : base32encode bs ≠ [] := by
  unfold base32encode
  intro hc
  rcases List.append_eq_nil.mp hc with ⟨h1, _⟩
  have hbits : bytesToBits bs ≠ [] := by
    intro hb
    have := bytesToBits_length bs
    rw [hb] at this
    simp at this
    exact h this
  exact toGroups5_ne_nil _ hbits (List.map_eq_nil_iff.mp h1)

theorem encodeComment_mem (s : GoStr) :
    ∀ x ∈ encodeComment s, x ∈ b32alphabet ∨ x = 61 := by
  intro x hx
  exact base32encode_mem _ x hx

theorem encodeComment_ne_nil (s : GoStr) : encodeComment s ≠ [] := by
  unfold encodeComment
  split
  · exact base32encode_ne_nil _ (by simp [unknownStr])
  · next h => exact base32encode_ne_nil _ (by simpa using h)

theorem encodeComment_byte_props (s : GoStr) :
    ∀ x ∈ encodeComment s, x ≠ 35 ∧ x ≠ 10 ∧ x ≠ 13 := by
  intro x hx
  rcases encodeComment_mem s x hx with h | h
  · have := alphabet_ne_pad x h
    exact ⟨this.2.1, this.2.2.1, this.2.2.2⟩
  · subst h
    refine ⟨by omega, by omega, by omega⟩

theorem decodeComment_encodeComment (s : GoStr) (hb : ∀ b ∈ s, b < 256) (hne : s ≠ []) :
    decodeComment (encodeComment s) = some s := by
  unfold decodeComment encodeComment
  rw [if_neg (by simpa using fun h => hne (List.eq_nil_of_length_eq_zero h))]
  exact base32_roundtrip s hb

theorem decodeComment_encodeComment_nil :
    decodeComment (encodeComment []) = some unknownStr := by
  show base32decode (base32encode unknownStr) = some unknownStr
  exact base32_roundtrip unknownStr (by decide)

/-! ## The style classifier (`determineStyle`) -/

/-- The `yml.Style` values the repository uses.  `zeroStyle` is the Go zero
value of `yaml.Style`; `taggedStyle` is what the code returns for the plain
rendering; `literalStyle` is the block style the code mentions but
deliberately never returns. -/
inductive Style where
  | zeroStyle : Style
  | taggedStyle : Style
  | doubleQuotedStyle : Style
  | literalStyle : Style
deriving DecidableEq, Repr

/-- Model of Go's `unicode.IsSpace` on a single byte value (all bytes are
below 256, where the Unicode White_Space code points are 9-13, 32, 0x85 and
0xA0). -/
def goIsSpaceB (b : Nat) : Bool :=
  b == 9 || b == 10 || b == 11 || b == 12 || b == 13 || b == 32 || b == 133 || b == 160


/-- The `needsQuotes` contribution of the byte `b` at position `idx`, per the
`switch` in `determineStyle`'s scan loop.  The cases appear in source order
and the first matching case wins; the newline case comes first and
contributes to `containsNewlines` instead, so it yields `false` here. -/
def styleNeedsQuotes (idx b : Nat) : Bool :=
  if b == 10 then false
  else if b < 32 && b != 9 then true
  else if (b == 58 || b == 45) && idx == 0 then true
  else if b == 92 then true
  else if b == 34 then true
  else if b > 127 then true
  else false

/-- The scan loop of `determineStyle` over the bytes of the input, carrying
the byte index and the two flags.  Each `switch` case only ever sets its flag
to true, so the loop is a disjunction-accumulating fold. -/
def scanStyleFlags : Nat → Bool → Bool → List Nat → Bool × Bool
  | _, nq, cn, [] => (nq, cn)
  | idx, nq, cn, b :: rest =>
    scanStyleFlags (idx + 1) (nq || styleNeedsQuotes idx b) (cn || (b == 10)) rest

/-- Model of `determineStyle`.  The final `unicode.IsSpace(rune(input[len-1]))`
test reads the last byte; the `len(input) == 0` disjunct shields it exactly as
Go's short-circuit evaluation does. -/
def determineStyle (input : List Nat) : Style :=
  let f := scanStyleFlags 0 false false input
  if f.2 && !f.1 then .doubleQuotedStyle
  else if f.1 || input.length == 0 || goIsSpaceB (input.getLastD 0) then .doubleQuotedStyle
  else .taggedStyle

theorem styleNeedsQuotes_false (idx b : Nat) (h32 : 32 ≤ b) (h127 : b ≤ 127)
    (h92 : b ≠ 92) (h34 : b ≠ 34) (hcolon : idx ≠ 0 ∨ (b ≠ 58 ∧ b ≠ 45)) :
    styleNeedsQuotes idx b = false := by
  unfold styleNeedsQuotes
  have c1 : ¬ (b == 10) = true := by simp; omega
  have c2 : ¬ (b < 32 && b != 9) = true := by simp; omega
  have c3 : ¬ ((b == 58 || b == 45) && idx == 0) = true := by
    simp only [Bool.and_eq_true, Bool.or_eq_true, beq_iff_eq]
    rintro ⟨h58 | h45, hi⟩ <;> rcases hcolon with hc | ⟨hc1, hc2⟩ <;> omega
  have c4 : ¬ (b == 92) = true := by simp; omega
  have c5 : ¬ (b == 34) = true := by simp; omega
  have c6 : ¬ (b > 127) := by omega
  simp [c1, c2, c3, c4, c5, c6]

theorem scanStyleFlags_snd_stays (l : List Nat) :
    ∀ idx nq, (scanStyleFlags idx nq true l).2 = true := by
  induction l with
  | nil => intro idx nq; rfl
  | cons b rest ih =>
    intro idx nq
    rw [scanStyleFlags]
    simpa using ih (idx + 1) (nq || styleNeedsQuotes idx b)

theorem scanStyleFlags_snd_newline (l : List Nat) (h10 : 10 ∈ l) :
    ∀ idx nq cn, (scanStyleFlags idx nq cn l).2 = true := by
  induction l with
  | nil => cases h10
  | cons b rest ih =>
    intro idx nq cn
    rw [scanStyleFlags]
    rcases List.mem_cons.mp h10 with h | h
    · subst h
      simpa using scanStyleFlags_snd_stays rest (idx + 1) (nq || styleNeedsQuotes idx 10)
    · exact ih h _ _ _

theorem scanStyleFlags_tail_quiet (l : List Nat) :
    ∀ idx cn, idx ≠ 0 → (∀ b ∈ l, 32 ≤ b ∧ b ≤ 127 ∧ b ≠ 92 ∧ b ≠ 34) →
    scanStyleFlags idx false cn l = (false, cn) := by
  induction l with
  | nil => intro idx cn _ _; rfl
  | cons b rest ih =>
    intro idx cn hidx h
    obtain ⟨h32, h127, h92, h34⟩ := h b (by simp)
    rw [scanStyleFlags]
    have hq : styleNeedsQuotes idx b = false :=
      styleNeedsQuotes_false idx b h32 h127 h92 h34 (Or.inl hidx)
    have hb10 : (b == 10) = false := by simp; omega
    rw [hq, hb10]
    simpa using ih (idx + 1) cn (by omega) (fun x hx => h x (by simp [hx]))

theorem determineStyle_plain (s : List Nat) (hne : s ≠ [])
    (hbytes : ∀ b ∈ s, 32 ≤ b ∧ b ≤ 127 ∧ b ≠ 92 ∧ b ≠ 34)
    (hhead : ∀ b, s.head? = some b → b ≠ 58 ∧ b ≠ 45)
    (hlast : ∀ b, s.getLast? = some b → goIsSpaceB b = false) :
    determineStyle s = Style.taggedStyle := by
  rcases s with _ | ⟨h, t⟩
  · exact absurd rfl hne
  obtain ⟨h32, h127, h92, h34⟩ := hbytes h (by simp)
  obtain ⟨h58, h45⟩ := hhead h rfl
  have hscan : scanStyleFlags 0 false false (h :: t) = (false, false) := by
    rw [scanStyleFlags]
    have hq : styleNeedsQuotes 0 h = false :=
      styleNeedsQuotes_false 0 h h32 h127 h92 h34 (Or.inr ⟨h58, h45⟩)
    have hb10 : (h == 10) = false := by simp; omega
    rw [hq, hb10]
    simpa using scanStyleFlags_tail_quiet t 1 false (by omega)
      (fun x hx => hbytes x (by simp [hx]))
  unfold determineStyle
  rw [hscan]
  simp only [Bool.and_false, Bool.false_and, Bool.and_true, Bool.not_false,
    Bool.false_or, if_false, Bool.false_eq_true, ite_false]
  have hlast2 : goIsSpaceB ((h :: t).getLastD 0) = false := by
    have : (h :: t).getLast? = some ((h :: t).getLast (by simp)) :=
      List.getLast?_eq_getLast _ _
    have hg := hlast _ this
    rw [List.getLastD_eq_getLast?]
    rw [this]
    simpa using hg
  rw [hlast2]
  simp

theorem determineStyle_newline (s : List Nat) (h10 : 10 ∈ s) :
    determineStyle s = Style.doubleQuotedStyle := by
  unfold determineStyle
  have h2 := scanStyleFlags_snd_newline s h10 0 false false
  rcases hscan : scanStyleFlags 0 false false s with ⟨nq, cn⟩
  rw [hscan] at h2
  simp only at h2
  subst h2
  rcases nq <;> simp

theorem determineStyle_never_literal (s : List Nat) :
    determineStyle s ≠ Style.literalStyle := by
  unfold determineStyle
  dsimp only
  split
  · simp
  split <;> simp

/-! ## Errors, yaml nodes and the abstract yaml primitive -/

/-- Go error values reachable in this code.  `errEncoding` is the sentinel
`ErrEncoding`; `corruptInput` stands for the base32 `CorruptInputError`
returned by `decodeComment`; `otherErr` stands for any other distinct error
value an external collaborator (the yaml library) may return. -/
inductive GoErr where
  | errEncoding : GoErr
  | corruptInput : GoErr
  | otherErr : Nat → GoErr
deriving DecidableEq, Repr

/-- The `yml.Kind` values the repository uses, plus the Go zero value. -/
inductive YKind where
  | zeroKind : YKind
  | documentNode : YKind
  | sequenceNode : YKind
  | mappingNode : YKind
  | scalarNode : YKind
deriving DecidableEq, Repr

/-- The subset of `yml.Node` fields the repository reads or writes:
kind, style, value, line comment and children. -/
inductive YNode where
  | mk (kind : YKind) (style : Style) (value : GoStr) (lineComment : GoStr)
      (content : List YNode) : YNode

def YNode.kind : YNode → YKind
  | .mk k _ _ _ _ => k

def YNode.style : YNode → Style
  | .mk _ s _ _ _ => s

def YNode.value : YNode → GoStr
  | .mk _ _ v _ _ => v

def YNode.lineComment : YNode → GoStr
  | .mk _ _ _ c _ => c

def YNode.content : YNode → List YNode
  | .mk _ _ _ _ cs => cs

/-- A Go `any` value stored in `meta.Object.Value`: either a string, or some
other runtime value (identified by an opaque tag) that only the yaml
primitive can interpret. -/
inductive GoValue where
  | str : GoStr → GoValue
  | other : Nat → GoValue
deriving DecidableEq, Repr

/-- Possible outcomes of the yaml primitive `n.Encode(v)`: it can replace the
node wholesale and return nil, return an error value, or panic.  (In Go,
`yml.Node.Encode` overwrites the node via `*n = *doc.Content[0]`, which is why
`encode` must re-apply the line comment afterwards.) -/
inductive PrimOutcome where
  | ok : YNode → PrimOutcome
  | fail : GoErr → PrimOutcome
  | panicked : PrimOutcome

/-- Model of `encoderWrapper`.  The deferred `recover` converts any panic of
`n.Encode(v)` into `ErrEncoding`; an error value returned by `n.Encode(v)` is
passed through unchanged; a string value bypasses the primitive completely
and sets style, kind and value on the node directly. -/
def encoderWrapper (prim : GoValue → PrimOutcome) (n : YNode) (v : GoValue) :
    Except GoErr YNode :=
  match v with
  | .str s => .ok (.mk .scalarNode (determineStyle s) s n.lineComment n.content)
  | .other t =>
    match prim (.other t) with
    | .ok n2 => .ok n2
    | .fail e => .error e
    | .panicked => .error .errEncoding

/-! ## The annotated value tree (`meta.Object`) -/

/-- Modelled from the spec: `meta.Object` of the external goschtalt
collaborator is a tagged union over scalar / sequence / mapping.  Each node
carries the provenance label its `OriginString()` method would return (empty
when no origin is known); a mapping is carried as an association list of
key/value entries, whose order is the (semantically irrelevant) construction
order of the Go map. -/
inductive MetaObj where
  | valueNode (origin : GoStr) (v : GoValue) : MetaObj
  | arrayNode (origin : GoStr) (elems : List MetaObj) : MetaObj
  | mapNode (origin : GoStr) (entries : List (GoStr × MetaObj)) : MetaObj

/-- Modelled from the spec: the origin string of an annotated value
(`obj.OriginString()`), carried as a field. -/
def objOrigin : MetaObj → GoStr
  | .valueNode o _ => o
  | .arrayNode o _ => o
  | .mapNode o _ => o

/-- Model of `len(obj.Map)`: the number of mapping entries; a scalar or
sequence has a nil map, hence 0. -/
def objMapLen : MetaObj → Nat
  | .mapNode _ es => es.length
  | _ => 0

/-! ## Lexicographic byte-string order (Go string comparison) -/

/-- Go string comparison `a <= b`: lexicographic on bytes, a proper prefix
being smaller. -/
def strLe : GoStr → GoStr → Bool
  | [], _ => true
  | _ :: _, [] => false
  | a :: as, b :: bs => if a < b then true else if b < a then false else strLe as bs

/-- The order `strLe` as a relation. -/
def strLeP (a b : GoStr) : Prop := strLe a b = true

instance : DecidableRel strLeP := fun a b => by
  unfold strLeP
  infer_instance

theorem strLe_total (a b : GoStr) : strLe a b = true ∨ strLe b a = true := by
  induction a generalizing b with
  | nil => exact Or.inl rfl
  | cons x as ih =>
    rcases b with _ | ⟨y, bs⟩
    · exact Or.inr rfl
    · by_cases hxy : x < y
      · exact Or.inl (by simp [strLe, hxy])
      · by_cases hyx : y < x
        · exact Or.inr (by simp [strLe, hyx, hxy])
        · have hx : x = y := by omega
          subst hx
          rcases ih bs with h | h
          · exact Or.inl (by simp [strLe, h])
          · exact Or.inr (by simp [strLe, h])

theorem strLe_trans (a b c : GoStr) (h1 : strLe a b = true) (h2 : strLe b c = true) :
    strLe a c = true := by
  induction a generalizing b c with
  | nil => rfl
  | cons x as ih =>
    rcases b with _ | ⟨y, bs⟩
    · simp [strLe] at h1
    rcases c with _ | ⟨z, cs⟩
    · simp [strLe] at h2
    simp only [strLe] at h1 h2 ⊢
    by_cases hxy : x < y
    · by_cases hzy : z < y
      · by_cases hyz : y < z
        · omega
        · simp [hyz, hzy] at h2
      · have hxz : x < z := by omega
        simp [hxz]
    · by_cases hyx : y < x
      · simp [hxy, hyx] at h1
      · have hxyeq : x = y := by omega
        subst hxyeq
        simp [hxy] at h1
        by_cases hxz : x < z
        · simp [hxz]
        · by_cases hzx : z < x
          · simp [hxz, hzx] at h2
          · simp only [hxz, hzx, if_false] at h2 ⊢
            exact ih bs cs h1 h2

theorem strLe_antisymm (a b : GoStr) (h1 : strLe a b = true) (h2 : strLe b a = true) :
    a = b := by
  induction a generalizing b with
  | nil =>
    rcases b with _ | ⟨y, bs⟩
    · rfl
    · simp [strLe] at h2
  | cons x as ih =>
    rcases b with _ | ⟨y, bs⟩
    · simp [strLe] at h1
    simp only [strLe] at h1 h2
    by_cases hxy : x < y
    · simp [hxy] at h2
      omega
    · by_cases hyx : y < x
      · simp [hyx, hxy] at h1
      · have hxyeq : x = y := by omega
        subst hxyeq
        simp only [hxy, if_false] at h1 h2
        rw [ih bs h1 h2]

/-- Order on map entries by key, per Go string comparison. -/
def entryLe (a b : GoStr × MetaObj) : Prop := strLeP a.1 b.1

instance : DecidableRel entryLe := fun a b => by
  unfold entryLe strLeP
  infer_instance

instance : IsTotal (GoStr × MetaObj) entryLe :=
  ⟨fun a b => strLe_total a.1 b.1⟩

instance : IsTrans (GoStr × MetaObj) entryLe :=
  ⟨fun _ _ _ h1 h2 => strLe_trans _ _ _ h1 h2⟩

/-- Sort the entries of a mapping by key.  The Go code collects the map's
keys, sorts them with `sort.Strings` and then indexes the map per key; on a
map (whose keys are unique) this is the same as sorting the entry list by
key, which is how the model phrases it. -/
def sortEntries (es : List (GoStr × MetaObj)) : List (GoStr × MetaObj) :=
  es.insertionSort entryLe

theorem sortEntries_perm (es : List (GoStr × MetaObj)) :
    List.Perm (sortEntries es) es :=
  List.perm_insertionSort entryLe es

theorem sortEntries_sorted (es : List (GoStr × MetaObj)) :
    (sortEntries es).Sorted entryLe :=
  List.sorted_insertionSort entryLe es

mutual

/-- Model of `encode`: build the `yml.Node` tree for an annotated value.  The
line comment is set first; for a scalar, `encoderWrapper` runs and the line
comment is re-applied afterwards (the yaml primitive wipes it); for a
sequence the children are encoded in order; for a mapping the entries are
processed in sorted key order, each contributing a key scalar node (carrying
the child's encoded origin comment) followed by the encoded child.  Any error
aborts the whole build with a zero `yml.Node` and the error. -/
def encode (prim : GoValue → PrimOutcome) : MetaObj → Except GoErr YNode
  | .valueNode o v =>
    match encoderWrapper prim (.mk .zeroKind .zeroStyle [] (encodeComment o) []) v with
    | .error e => .error e
    | .ok n => .ok (.mk n.kind n.style n.value (encodeComment o) n.content)
  | .arrayNode o elems =>
    match encodeSeq prim elems with
    | .error e => .error e
    | .ok cs => .ok (.mk .sequenceNode .zeroStyle [] (encodeComment o) cs)
  | .mapNode o entries =>
    match encodeMap prim (sortEntries entries) with
    | .error e => .error e
    | .ok cs => .ok (.mk .mappingNode .zeroStyle [] (encodeComment o) cs)
termination_by obj => sizeOf obj
decreasing_by
  all_goals simp_wf
  all_goals first
    | omega
    | (rename_i entries
       have := (sortEntries_perm entries).sizeOf_eq_sizeOf
       omega)

/-- The children of a sequence node, encoded in order with fail-fast error
propagation (the loop body of `encode`'s array case). -/
def encodeSeq (prim : GoValue → PrimOutcome) : List MetaObj → Except GoErr (List YNode)
  | [] => .ok []
  | x :: xs =>
    match encode prim x with
    | .error e => .error e
    | .ok n =>
      match encodeSeq prim xs with
      | .error e => .error e
      | .ok ns => .ok (n :: ns)
termination_by l => sizeOf l
decreasing_by
  all_goals simp_wf
  all_goals omega

/-- The children of a mapping node from its key-sorted entries: for each
entry, a key scalar node carrying the child's encoded origin, then the
encoded child (the loop body of `encode`'s map case). -/
def encodeMap (prim : GoValue → PrimOutcome) :
    List (GoStr × MetaObj) → Except GoErr (List YNode)
  | [] => .ok []
  | (k, v) :: rest =>
    match encode prim v with
    | .error e => .error e
    | .ok valNode =>
      match encodeMap prim rest with
      | .error e => .error e
      | .ok ns =>
        .ok (.mk .scalarNode .zeroStyle k (encodeComment (objOrigin v)) [] :: valNode :: ns)

termination_by es => sizeOf es
decreasing_by
  all_goals simp_wf
  all_goals omega

end

/-! ## The comment aligner (`alignComments`) -/

/-- Drop one trailing carriage return (13), as `bufio.ScanLines` does to each
line. -/
def stripCR (l : GoStr) : GoStr :=
  match l.getLast? with
  | some 13 => l.dropLast
  | _ => l

/-- Split on every newline byte (10), producing one piece more than the
number of newlines. -/
def splitNL : GoStr → List GoStr
  | [] => [[]]
  | b :: rest =>
    match splitNL rest with
    | [] => [[]]
    | p :: ps => if b == 10 then [] :: p :: ps else (b :: p) :: ps

/-- The lines a `bufio.Scanner` with `bufio.ScanLines` yields on `buf`: split
at newlines, drop the final empty piece that a trailing newline (or an empty
input) produces, and strip one trailing carriage return per line. -/
def scannerLines (buf : GoStr) : List GoStr :=
  let ps := splitNL buf
  (if ps.getLast? = some [] then ps.dropLast else ps).map stripCR

/-- Model of `strings.LastIndex(line, "# ")`: the start index of the last
occurrence of the byte pair (35, 32), `none` when there is none. -/
def lastIndexHS : GoStr → Option Nat
  | [] => none
  | a :: rest =>
    match lastIndexHS rest with
    | some i => some (i + 1)
    | none =>
      match rest with
      | b :: _ => if a == 35 && b == 32 then some 0 else none
      | [] => none

/-- The `widest` scan of `alignComments`: fold the lines, keeping the largest
marker index found (`found > widest`, starting from 0; an absent marker is
`-1` and never wins). -/
def computeWidest : List GoStr → Nat → Nat
  | [], w => w
  | line :: rest, w =>
    computeWidest rest
      (match lastIndexHS line with
       | some f => if w < f then f else w
       | none => w)

/-- The output loop of `alignComments`: each line whose last marker index is
positive is split at the marker, its comment token decoded (failure aborts
the whole call), its left part padded with spaces to the target column and
re-emitted with marker, space, decoded comment, and newline; other lines are
dropped. -/
def renderLines (widest : Nat) : List GoStr → Except GoErr GoStr
  | [] => .ok []
  | line :: rest =>
    match lastIndexHS line with
    | some f =>
      if 0 < f then
        match decodeComment (line.drop (f + 2)) with
        | none => .error .corruptInput
        | some comment =>
          match renderLines widest rest with
          | .error e => .error e
          | .ok out =>
            .ok (line.take f ++ List.replicate (widest - f) 32 ++
              [35, 32] ++ comment ++ [10] ++ out)
      else renderLines widest rest
    | none => renderLines widest rest

/-- Model of `alignComments`: scan the lines for the widest marker column,
bump it to the target column `widest + 8 + widest % 4`, then rewrite the
lines. -/
def alignComments (buf : GoStr) : Except GoErr GoStr :=
  let lines := scannerLines buf
  let widest := computeWidest lines 0
  renderLines (widest + 8 + widest % 4) lines

/-! ## The top-level extended encoder (`EncodeExtended`) -/

/-- The bytes of the literal `"null\n"` document. -/
def nullDoc : GoStr := [110, 117, 108, 108, 10]

/-- Model of `EncodeExtended`, parameterised by the yaml primitive `prim`
(for `n.Encode`) and the abstract renderer `marshal` (for `yml.Marshal`): an
empty (or nil) top-level map short-circuits to the literal null document;
otherwise the node tree is built, wrapped in a document node and marshalled,
and the rendered bytes are passed through `alignComments`.  Errors of each
stage are returned with nil output bytes. -/
def EncodeExtended (prim : GoValue → PrimOutcome)
    (marshal : YNode → Except GoErr GoStr) (obj : MetaObj) : Except GoErr GoStr :=
  if objMapLen obj = 0 then .ok nullDoc
  else
    match encode prim obj with
    | .error e => .error e
    | .ok n =>
      match marshal (.mk .documentNode .zeroStyle [] [] [n]) with
      | .error e => .error e
      | .ok b => alignComments b

/-! ## Claim C1: comment codec round-trip -/

/-- C1 (counterexample): the round-trip law fails exactly at the empty
string, where `decodeComment (encodeComment "")` yields the sentinel
"unknown", not the original empty string. -/
theorem c1_empty_no_roundtrip :
    decodeComment (encodeComment []) = some unknownStr ∧
      decodeComment (encodeComment []) ≠ some ([] : GoStr) := by
  refine ⟨decodeComment_encodeComment_nil, ?_⟩
  rw [decodeComment_encodeComment_nil]
  simp [unknownStr]

/-- C1 (amended): for every non-empty byte string `s`,
`decodeComment (encodeComment s) = some s`; for the empty string the encoder
first substitutes the sentinel "unknown", so decoding recovers "unknown"
rather than the empty string. -/
theorem c1_roundtrip (s : GoStr) (hb : ∀ b ∈ s, b < 256) :
    (s ≠ [] → decodeComment (encodeComment s) = some s) ∧
      (s = [] → decodeComment (encodeComment s) = some unknownStr) :=
  ⟨fun hne => decodeComment_encodeComment s hb hne,
   fun he => he ▸ decodeComment_encodeComment_nil⟩

/-- C1 (witness): the round-trip at the concrete two-byte string "hi". -/
theorem c1_roundtrip_witness :
    (∀ b ∈ ([104, 105] : GoStr), b < 256) ∧
      decodeComment (encodeComment [104, 105]) = some [104, 105] :=
  ⟨by decide, (c1_roundtrip [104, 105] (by decide)).1 (by decide)⟩

/-! ## Claim C9: the encoded token never contains the marker byte -/

/-- C9: every byte of an encoded comment token is in the base32 standard
alphabet or is the padding byte 61, and in particular is never the comment
marker 35. -/
theorem c9_no_marker (s : GoStr) :
    ∀ x ∈ encodeComment s, (x ∈ b32alphabet ∨ x = 61) ∧ x ≠ 35 :=
  fun x hx => ⟨encodeComment_mem s x hx, (encodeComment_byte_props s x hx).1⟩

/-- C9 (witness): the first byte of the token for "a" evaluated concretely. -/
theorem c9_no_marker_witness :
    (77 ∈ encodeComment [97]) ∧ ((77 ∈ b32alphabet ∨ 77 = 61) ∧ 77 ≠ 35) :=
  ⟨by decide, c9_no_marker [97] 77 (by decide)⟩

/-! ## Claim C4: plain-safe strings classify as plain -/

/-- C4: a non-empty string of bytes in [0x20, 0x7F] with no backslash and no
double quote, not starting with a colon or hyphen and not ending in a
whitespace character, is classified with the plain (in the code:
`yml.TaggedStyle`) style, not double-quoted. -/
theorem c4_plain_style (s : GoStr) (hne : s ≠ [])
    (hbytes : ∀ b ∈ s, 32 ≤ b ∧ b ≤ 127 ∧ b ≠ 92 ∧ b ≠ 34)
    (hhead : ∀ b, s.head? = some b → b ≠ 58 ∧ b ≠ 45)
    (hlast : ∀ b, s.getLast? = some b → goIsSpaceB b = false) :
    determineStyle s = Style.taggedStyle :=
  determineStyle_plain s hne hbytes hhead hlast

/-- C4 (witness): the concrete string "simple" classifies as plain. -/
theorem c4_plain_style_witness :
    determineStyle [115, 105, 109, 112, 108, 101] = Style.taggedStyle :=
  c4_plain_style [115, 105, 109, 112, 108, 101] (by decide) (by decide)
    (by decide) (by decide)

/-! ## Claim C8: newline-bearing strings are double-quoted, never literal -/

/-- C8: a string containing a newline byte is always classified double-quoted,
and the classifier never returns the multi-line literal block style for any
string. -/
theorem c8_newline_double_quoted (s : GoStr) :
    (10 ∈ s → determineStyle s = Style.doubleQuotedStyle) ∧
      determineStyle s ≠ Style.literalStyle :=
  ⟨determineStyle_newline s, determineStyle_never_literal s⟩

/-- C8 (witness): the concrete string "g\no" is double-quoted and not
literal. -/
theorem c8_newline_double_quoted_witness :
    determineStyle [103, 10, 111] = Style.doubleQuotedStyle ∧
      determineStyle [103, 10, 111] ≠ Style.literalStyle :=
  ⟨(c8_newline_double_quoted [103, 10, 111]).1 (by decide),
   (c8_newline_double_quoted [103, 10, 111]).2⟩

/-! ## Claim C7: empty mapping short-circuits to the null document -/

/-- C7: for any yaml primitive and any renderer, the extended encoder on a
top-level empty mapping returns exactly the bytes of "null\n" with no error;
neither the tree builder, the renderer nor the aligner is consulted (the
result does not depend on `prim` or `marshal`). -/
theorem c7_empty_map_null (prim : GoValue → PrimOutcome)
    (marshal : YNode → Except GoErr GoStr) (o : GoStr) :
    EncodeExtended prim marshal (.mapNode o []) = .ok nullDoc := by
  simp [EncodeExtended, objMapLen]

/-! ## Claim C10: a marker at column zero drops the line -/

/-- C10: the aligner keeps a line only when the last marker occurrence starts
at a strictly positive column; a line whose last marker occurrence starts at
column 0 is dropped exactly like a line with no marker at all. -/
theorem c10_column_zero_dropped (w : Nat) (line : GoStr) (rest : List GoStr)
    (h : lastIndexHS line = some 0 ∨ lastIndexHS line = none) :
    renderLines w (line :: rest) = renderLines w rest := by
  rcases h with h | h <;> simp [renderLines, h]

/-- C10 (witness): the concrete line "# A" (marker at column 0) is dropped. -/
theorem c10_column_zero_dropped_witness :
    renderLines 12 [[35, 32, 65]] = renderLines 12 [] :=
  c10_column_zero_dropped 12 [35, 32, 65] [] (Or.inl (by decide))

/-! ## Claim C2: failure modes of the scalar-encoding primitive -/

theorem encode_value_other (prim : GoValue → PrimOutcome) (o : GoStr) (t : Nat) :
    encode prim (.valueNode o (.other t)) =
      match prim (.other t) with
      | .ok n2 => .ok (.mk n2.kind n2.style n2.value (encodeComment o) n2.content)
      | .fail e => .error e
      | .panicked => .error .errEncoding := by
  rw [encode]
  unfold encoderWrapper
  rcases hp : prim (.other t) with n2 | e | _ <;> simp [hp]

theorem encode_singleton_map_error (prim : GoValue → PrimOutcome) (o2 k : GoStr)
    (vobj : MetaObj) (e : GoErr) (h : encode prim vobj = .error e) :
    encode prim (.mapNode o2 [(k, vobj)]) = .error e := by
  rw [encode]
  have hs : sortEntries [(k, vobj)] = [(k, vobj)] := rfl
  rw [hs, encodeMap, h]

theorem encodeExtended_error (prim : GoValue → PrimOutcome)
    (marshal : YNode → Except GoErr GoStr) (obj : MetaObj) (e : GoErr)
    (hne : objMapLen obj ≠ 0) (h : encode prim obj = .error e) :
    EncodeExtended prim marshal obj = .error e := by
  unfold EncodeExtended
  rw [if_neg hne, h]

/-- C2 (counterexample): when the yaml primitive returns an error value
(rather than panicking), `encode` propagates that exact error: for a
primitive failing with the distinct error `otherErr 7`, the build and the
extended encode fail with `otherErr 7`, which is not the sentinel
`ErrEncoding` — refuting "never any other error value". -/
theorem c2_error_value_not_normalized :
    encode (fun _ => PrimOutcome.fail (GoErr.otherErr 7)) (.valueNode [] (.other 0)) =
        .error (GoErr.otherErr 7) ∧
      EncodeExtended (fun _ => PrimOutcome.fail (GoErr.otherErr 7))
          (fun _ => .ok []) (.mapNode [] [([107], .valueNode [] (.other 0))]) =
        .error (GoErr.otherErr 7) ∧
      GoErr.otherErr 7 ≠ GoErr.errEncoding := by
  have h1 := encode_value_other (fun _ => PrimOutcome.fail (GoErr.otherErr 7)) [] 0
  refine ⟨h1, ?_, by simp⟩
  exact encodeExtended_error _ _ _ _ (by simp [objMapLen])
    (encode_singleton_map_error _ _ _ _ _ h1)

/-- C2 (amended): if the primitive panics on a (non-string) value, the build
fails with the sentinel `ErrEncoding`; if the primitive instead returns an
error value `e`, the build fails with that same `e` (only panics are
normalized to the sentinel).  In both cases the failing result carries no
node, and the extended encode of a non-empty mapping containing the value
returns the same error and no bytes. -/
theorem c2_failure_modes (prim : GoValue → PrimOutcome)
    (marshal : YNode → Except GoErr GoStr) (o o2 k : GoStr) (t : Nat) :
    (prim (.other t) = .panicked →
      encode prim (.valueNode o (.other t)) = .error .errEncoding ∧
      EncodeExtended prim marshal (.mapNode o2 [(k, .valueNode o (.other t))]) =
        .error .errEncoding) ∧
    (∀ e, prim (.other t) = .fail e →
      encode prim (.valueNode o (.other t)) = .error e ∧
      EncodeExtended prim marshal (.mapNode o2 [(k, .valueNode o (.other t))]) =
        .error e) := by
  constructor
  · intro hp
    have h1 : encode prim (.valueNode o (.other t)) = .error .errEncoding := by
      rw [encode_value_other, hp]
    exact ⟨h1, encodeExtended_error _ _ _ _ (by simp [objMapLen])
      (encode_singleton_map_error _ _ _ _ _ h1)⟩
  · intro e hp
    have h1 : encode prim (.valueNode o (.other t)) = .error e := by
      rw [encode_value_other, hp]
    exact ⟨h1, encodeExtended_error _ _ _ _ (by simp [objMapLen])
      (encode_singleton_map_error _ _ _ _ _ h1)⟩

/-- C2 (witness): the amended claim at a concrete panicking primitive. -/
theorem c2_failure_modes_witness :
    encode (fun _ => PrimOutcome.panicked) (.valueNode [] (.other 0)) =
        .error .errEncoding ∧
      EncodeExtended (fun _ => PrimOutcome.panicked) (fun _ => .ok [])
          (.mapNode [] [([107], .valueNode [] (.other 0))]) = .error .errEncoding :=
  (c2_failure_modes (fun _ => PrimOutcome.panicked) (fun _ => .ok [])
    [] [] [107] 0).1 rfl

/-! ## Claim C6: mapping output is independent of entry order -/

theorem sorted_perm_nodup_eq (l1 l2 : List (GoStr × MetaObj)) (hp : List.Perm l1 l2)
    (hs1 : l1.Sorted entryLe) (hs2 : l2.Sorted entryLe)
    (hnd : (l1.map Prod.fst).Nodup) : l1 = l2 := by
  induction l1 generalizing l2 with
  | nil => exact (List.Perm.eq_nil hp.symm).symm
  | cons a t1 ih =>
    rcases l2 with _ | ⟨b, t2⟩
    · exact absurd (List.Perm.eq_nil hp) (by simp)
    by_cases hab : a = b
    · subst hab
      have hp2 : List.Perm t1 t2 := hp.cons_inv
      have hs1t := (List.sorted_cons.mp hs1).2
      have hs2t := (List.sorted_cons.mp hs2).2
      have hndt : (t1.map Prod.fst).Nodup := by
        simp only [List.map_cons, List.nodup_cons] at hnd
        exact hnd.2
      rw [ih t2 hp2 hs1t hs2t hndt]
    · exfalso
      have hain : a ∈ b :: t2 := hp.mem_iff.mp (by simp)
      have hbin : b ∈ a :: t1 := hp.symm.mem_iff.mp (by simp)
      have hat2 : a ∈ t2 := by
        rcases List.mem_cons.mp hain with h | h
        · exact absurd h hab
        · exact h
      have hbt1 : b ∈ t1 := by
        rcases List.mem_cons.mp hbin with h | h
        · exact absurd h.symm hab
        · exact h
      have h1 : entryLe a b := (List.sorted_cons.mp hs1).1 b hbt1
      have h2 : entryLe b a := (List.sorted_cons.mp hs2).1 a hat2
      have hkey : a.1 = b.1 := strLe_antisymm _ _ h1 h2
      simp only [List.map_cons, List.nodup_cons] at hnd
      exact hnd.1 (hkey ▸ (List.mem_map.mpr ⟨b, hbt1, rfl⟩))

theorem sortEntries_eq_of_perm (e1 e2 : List (GoStr × MetaObj))
    (hperm : List.Perm e1 e2) (hnd : (e1.map Prod.fst).Nodup) :
    sortEntries e1 = sortEntries e2 := by
  have hp : List.Perm (sortEntries e1) (sortEntries e2) :=
    ((sortEntries_perm e1).trans hperm).trans (sortEntries_perm e2).symm
  have hnd1 : ((sortEntries e1).map Prod.fst).Nodup :=
    (List.Perm.nodup_iff ((sortEntries_perm e1).map Prod.fst)).mpr hnd
  exact sorted_perm_nodup_eq _ _ hp (sortEntries_sorted e1) (sortEntries_sorted e2) hnd1

/-- The values of the key scalar nodes: every even-position element of a
mapping node's content list. -/
def evenVals : List YNode → List GoStr
  | [] => []
  | k :: _ :: rest => k.value :: evenVals rest
  | [k] => [k.value]

theorem encodeMap_keys (prim : GoValue → PrimOutcome)
    (es : List (GoStr × MetaObj)) (cs : List YNode)
    (h : encodeMap prim es = .ok cs) : evenVals cs = es.map Prod.fst := by
  induction es generalizing cs with
  | nil =>
    rw [encodeMap] at h
    cases h
    rfl
  | cons e rest ih =>
    rcases e with ⟨k, v⟩
    rw [encodeMap] at h
    rcases he : encode prim v with e' | valN
    · rw [he] at h; cases h
    rcases hm : encodeMap prim rest with e' | ns
    · rw [he, hm] at h; cases h
    rw [he, hm] at h
    cases h
    simp only [evenVals, YNode.value, List.map_cons]
    rw [ih ns hm]

theorem encode_mapNode_eq (prim : GoValue → PrimOutcome) (o : GoStr)
    (e1 e2 : List (GoStr × MetaObj)) (hperm : List.Perm e1 e2)
    (hnd : (e1.map Prod.fst).Nodup) :
    encode prim (.mapNode o e1) = encode prim (.mapNode o e2) := by
  rw [encode, encode, sortEntries_eq_of_perm e1 e2 hperm hnd]

mutual

/-- Two annotated values with identical key/value sets whose mappings differ
only in entry (construction) order: scalars must agree exactly, sequences
pointwise, and each mapping's entries agree pointwise up to a permutation,
with unique keys (as every Go map has). -/
inductive MEquiv : MetaObj → MetaObj → Prop where
  | value (o : GoStr) (v : GoValue) : MEquiv (.valueNode o v) (.valueNode o v)
  | array (o : GoStr) (es1 es2 : List MetaObj) :
      MEquivList es1 es2 → MEquiv (.arrayNode o es1) (.arrayNode o es2)
  | map (o : GoStr) (e1 e1' e2 : List (GoStr × MetaObj)) :
      MEquivEntries e1 e1' → List.Perm e1' e2 → (e1.map Prod.fst).Nodup →
      MEquiv (.mapNode o e1) (.mapNode o e2)

/-- Pointwise `MEquiv` on sequence elements. -/
inductive MEquivList : List MetaObj → List MetaObj → Prop where
  | nil : MEquivList [] []
  | cons {a b : MetaObj} {as bs : List MetaObj} :
      MEquiv a b → MEquivList as bs → MEquivList (a :: as) (b :: bs)

/-- Pointwise `MEquiv` on mapping entries: equal keys, equivalent values. -/
inductive MEquivEntries :
    List (GoStr × MetaObj) → List (GoStr × MetaObj) → Prop where
  | nil : MEquivEntries [] []
  | cons (k : GoStr) {v w : MetaObj} {es fs : List (GoStr × MetaObj)} :
      MEquiv v w → MEquivEntries es fs →
      MEquivEntries ((k, v) :: es) ((k, w) :: fs)

end

theorem mequiv_origin : ∀ {a b : MetaObj}, MEquiv a b → objOrigin a = objOrigin b
  | _, _, .value _ _ => rfl
  | _, _, .array _ _ _ _ => rfl
  | _, _, .map _ _ _ _ _ _ _ => rfl

/-- The per-entry facts the mapping case needs: equal key, equal child
origin, equal child encoding. -/
def entryREL (prim : GoValue → PrimOutcome) (p q : GoStr × MetaObj) : Prop :=
  p.1 = q.1 ∧ objOrigin p.2 = objOrigin q.2 ∧ encode prim p.2 = encode prim q.2

theorem forall2_keys (prim : GoValue → PrimOutcome)
    (e1 e1' : List (GoStr × MetaObj)) (hf : List.Forall₂ (entryREL prim) e1 e1') :
    e1.map Prod.fst = e1'.map Prod.fst := by
  induction hf with
  | nil => rfl
  | cons hpq hrest ih => simp only [List.map_cons, hpq.1, ih]

theorem forall2_orderedInsert (prim : GoValue → PrimOutcome)
    (p q : GoStr × MetaObj) (hpq : entryREL prim p q) {gs hs : List (GoStr × MetaObj)}
    (hf : List.Forall₂ (entryREL prim) gs hs) :
    List.Forall₂ (entryREL prim) (gs.orderedInsert entryLe p)
      (hs.orderedInsert entryLe q) := by
  induction hf with
  | nil => exact .cons hpq .nil
  | cons hgh hrest ih =>
    rename_i g h gs' hs'
    rw [List.orderedInsert, List.orderedInsert]
    have hcond : entryLe p g ↔ entryLe q h := by
      unfold entryLe strLeP
      rw [hpq.1, hgh.1]
    by_cases hc : entryLe p g
    · rw [if_pos hc, if_pos (hcond.mp hc)]
      exact .cons hpq (.cons hgh hrest)
    · rw [if_neg hc, if_neg (fun hq => hc (hcond.mpr hq))]
      exact .cons hgh ih

theorem forall2_sortEntries (prim : GoValue → PrimOutcome)
    {e1 e1' : List (GoStr × MetaObj)} (hf : List.Forall₂ (entryREL prim) e1 e1') :
    List.Forall₂ (entryREL prim) (sortEntries e1) (sortEntries e1') := by
  induction hf with
  | nil => exact .nil
  | cons hpq hrest ih =>
    show List.Forall₂ (entryREL prim) (List.orderedInsert entryLe _ (sortEntries _))
      (List.orderedInsert entryLe _ (sortEntries _))
    exact forall2_orderedInsert prim _ _ hpq ih

theorem encodeMap_congr (prim : GoValue → PrimOutcome)
    {g h : List (GoStr × MetaObj)} (hf : List.Forall₂ (entryREL prim) g h) :
    encodeMap prim g = encodeMap prim h := by
  induction hf with
  | nil => rfl
  | cons hpq hrest ih =>
    rename_i p q g' h'
    rcases p with ⟨pk, pv⟩
    rcases q with ⟨qk, qv⟩
    obtain ⟨hk, ho, he⟩ := hpq
    simp only at hk ho he
    rw [encodeMap, encodeMap, he, hk, ho, ih]

mutual

theorem mequiv_encode (prim : GoValue → PrimOutcome) :
    ∀ {a b : MetaObj}, MEquiv a b → encode prim a = encode prim b
  | _, _, .value _ _ => rfl
  | _, _, .array o es1 es2 h => by
    rw [encode, encode, mequivList_encodeSeq prim h]
  | _, _, .map o e1 e1' e2 he hp hnd => by
    rw [encode, encode]
    have hf : List.Forall₂ (entryREL prim) e1 e1' := mequivEntries_rel prim he
    have hkeys : e1.map Prod.fst = e1'.map Prod.fst := forall2_keys prim e1 e1' hf
    have hnd' : (e1'.map Prod.fst).Nodup := hkeys ▸ hnd
    rw [encodeMap_congr prim (forall2_sortEntries prim hf),
      sortEntries_eq_of_perm e1' e2 hp hnd']

theorem mequivList_encodeSeq (prim : GoValue → PrimOutcome) :
    ∀ {es fs : List MetaObj}, MEquivList es fs → encodeSeq prim es = encodeSeq prim fs
  | _, _, .nil => rfl
  | _, _, .cons h hrest => by
    rw [encodeSeq, encodeSeq, mequiv_encode prim h, mequivList_encodeSeq prim hrest]

theorem mequivEntries_rel (prim : GoValue → PrimOutcome) :
    ∀ {es fs : List (GoStr × MetaObj)}, MEquivEntries es fs →
      List.Forall₂ (entryREL prim) es fs
  | _, _, .nil => .nil
  | _, _, .cons k hv hrest =>
    .cons ⟨rfl, mequiv_origin hv, mequiv_encode prim hv⟩ (mequivEntries_rel prim hrest)

end

theorem mequiv_mapLen (prim : GoValue → PrimOutcome) :
    ∀ {a b : MetaObj}, MEquiv a b → objMapLen a = objMapLen b
  | _, _, .value _ _ => rfl
  | _, _, .array _ _ _ _ => rfl
  | _, _, .map o e1 e1' e2 he hp _ => by
    show e1.length = e2.length
    rw [(mequivEntries_rel prim he).length_eq, hp.length_eq]

/-- C6: for two annotated value trees with identical key/value sets whose
mappings (at any depth, unique keys as every Go map has) differ only in entry
construction order, the extended encoder produces identical results for
every primitive and every renderer — in particular byte-identical output on
success; moreover the key scalar nodes of a built mapping carry exactly the
keys in sorted order, sorted by the lexicographic byte order `strLeP`. -/
theorem c6_order_independent (prim : GoValue → PrimOutcome)
    (marshal : YNode → Except GoErr GoStr) (t1 t2 : MetaObj) (h : MEquiv t1 t2) :
    EncodeExtended prim marshal t1 = EncodeExtended prim marshal t2 ∧
      (∀ o entries n, t1 = .mapNode o entries → encode prim t1 = .ok n →
        evenVals n.content = (sortEntries entries).map Prod.fst ∧
        ((sortEntries entries).map Prod.fst).Sorted strLeP) := by
  constructor
  · unfold EncodeExtended
    rw [mequiv_mapLen prim h, mequiv_encode prim h]
  · rintro o entries n rfl hn
    constructor
    · rw [encode] at hn
      rcases hm : encodeMap prim (sortEntries entries) with e' | cs
      · rw [hm] at hn; cases hn
      · rw [hm] at hn
        cases hn
        simpa only [YNode.content] using encodeMap_keys prim _ cs hm
    · exact List.Pairwise.map Prod.fst (fun a b hab => hab) (sortEntries_sorted entries)

/-- C6 (witness): swapping two concrete entries of a mapping leaves the
output unchanged. -/
theorem c6_order_independent_witness :
    EncodeExtended (fun _ => PrimOutcome.panicked) (fun _ => .ok []) (.mapNode []
        [([98], .valueNode [] (.str [121])), ([97], .valueNode [] (.str [120]))]) =
      EncodeExtended (fun _ => PrimOutcome.panicked) (fun _ => .ok []) (.mapNode []
        [([97], .valueNode [] (.str [120])), ([98], .valueNode [] (.str [121]))]) :=
  (c6_order_independent (fun _ => PrimOutcome.panicked) (fun _ => .ok [])
    (.mapNode [] [([98], .valueNode [] (.str [121])), ([97], .valueNode [] (.str [120]))])
    (.mapNode [] [([97], .valueNode [] (.str [120])), ([98], .valueNode [] (.str [121]))])
    (.map [] _ _ _
      (.cons [98] (.value [] (.str [121])) (.cons [97] (.value [] (.str [120])) .nil))
      (List.Perm.swap ([97], MetaObj.valueNode [] (.str [120]))
        ([98], MetaObj.valueNode [] (.str [121])) [])
      (by decide))).1

/-! ## Claim C5: characterisation of the aligner -/

/-- Modelled from the spec (claim C5): the target column uses "widest", the
maximum over all lines of the start column of the last marker occurrence. -/
def widestSpec (lines : List GoStr) : Nat :=
  (lines.filterMap lastIndexHS).foldl max 0

/-- Modelled from the spec (claim C5): rewrite one marker-bearing line as its
content padded with spaces up to the target column, followed by marker,
space, and the decoded comment (and the line terminator). -/
def rewriteLineSpec (target : Nat) (line : GoStr) : Option GoStr :=
  match lastIndexHS line with
  | some f =>
    match decodeComment (line.drop (f + 2)) with
    | none => none
    | some c => some (line.take f ++ List.replicate (target - f) 32 ++ [35, 32] ++ c ++ [10])
  | none => none

/-- Rewrite a list of lines, failing as soon as one line fails. -/
def mapLines (f : GoStr → Option GoStr) : List GoStr → Option (List GoStr)
  | [] => some []
  | l :: ls =>
    match f l with
    | none => none
    | some o =>
      match mapLines f ls with
      | none => none
      | some os => some (o :: os)

/-- Modelled from the spec: the aligner as claim C5 words it, rewriting EVERY
marker-bearing line (a last occurrence at column 0 included) to the padded
form. -/
def alignSpecClaim (buf : GoStr) : Option GoStr :=
  let lines := scannerLines buf
  let target := widestSpec lines + 8 + widestSpec lines % 4
  match mapLines (rewriteLineSpec target)
      (lines.filter (fun l => (lastIndexHS l).isSome)) with
  | some outs => some outs.flatten
  | none => none

/-- Whether the aligner keeps a line: its last marker occurrence starts at a
strictly positive column. -/
def keepLine (l : GoStr) : Bool :=
  match lastIndexHS l with
  | some f => decide (0 < f)
  | none => false

/-- Modelled from the amended claim C5: as `alignSpecClaim`, but only lines
whose last marker occurrence starts at a column strictly greater than zero
are rewritten; the others are dropped. -/
def alignSpecAmended (buf : GoStr) : Option GoStr :=
  let lines := scannerLines buf
  let target := widestSpec lines + 8 + widestSpec lines % 4
  match mapLines (rewriteLineSpec target) (lines.filter keepLine) with
  | some outs => some outs.flatten
  | none => none

theorem computeWidest_eq_widestSpec (ls : List GoStr) :
    ∀ w, computeWidest ls w = (ls.filterMap lastIndexHS).foldl max w := by
  induction ls with
  | nil => intro w; rfl
  | cons line rest ih =>
    intro w
    rw [computeWidest]
    rcases h : lastIndexHS line with _ | f
    · rw [List.filterMap_cons, h]
      exact ih w
    · rw [List.filterMap_cons, h]
      simp only [List.foldl_cons]
      rw [ih]
      congr 1
      split <;> omega

theorem renderLines_cons_some (target f : Nat) (line : GoStr) (rest : List GoStr)
    (h : lastIndexHS line = some f) :
    renderLines target (line :: rest) =
      if 0 < f then
        match decodeComment (line.drop (f + 2)) with
        | none => .error .corruptInput
        | some comment =>
          match renderLines target rest with
          | .error e => .error e
          | .ok out => .ok (line.take f ++ List.replicate (target - f) 32 ++
              [35, 32] ++ comment ++ [10] ++ out)
      else renderLines target rest := by
  rw [renderLines, h]

theorem renderLines_cons_none (target : Nat) (line : GoStr) (rest : List GoStr)
    (h : lastIndexHS line = none) :
    renderLines target (line :: rest) = renderLines target rest := by
  rw [renderLines, h]

theorem rewriteLineSpec_eq (target : Nat) (line : GoStr) (f : Nat)
    (h : lastIndexHS line = some f) :
    rewriteLineSpec target line =
      match decodeComment (line.drop (f + 2)) with
      | none => none
      | some c => some (line.take f ++ List.replicate (target - f) 32 ++
          [35, 32] ++ c ++ [10]) := by
  unfold rewriteLineSpec
  rw [h]

theorem renderLines_eq_spec (target : Nat) (ls : List GoStr) :
    renderLines target ls =
      match mapLines (rewriteLineSpec target) (ls.filter keepLine) with
      | some outs => .ok outs.flatten
      | none => .error .corruptInput := by
  induction ls with
  | nil => rfl
  | cons line rest ih =>
    rcases h : lastIndexHS line with _ | f
    · have hk : keepLine line = false := by simp [keepLine, h]
      rw [renderLines_cons_none target line rest h,
        List.filter_cons_of_neg (by simp [hk]), ih]
    · rw [renderLines_cons_some target f line rest h]
      by_cases hf : 0 < f
      · have hk : keepLine line = true := by simp [keepLine, h, hf]
        rw [if_pos hf, List.filter_cons_of_pos (by simp [hk])]
        rcases hd : decodeComment (line.drop (f + 2)) with _ | c
        · rw [mapLines, rewriteLineSpec_eq target line f h, hd]
        · rw [mapLines, rewriteLineSpec_eq target line f h, hd]
          rw [ih]
          rcases hm : mapLines (rewriteLineSpec target) (rest.filter keepLine) with _ | outs
          · rfl
          · simp [List.flatten_cons]
      · have hk : keepLine line = false := by simp [keepLine, h, hf]
        rw [if_neg hf, List.filter_cons_of_neg (by simp [hk]), ih]

/-- C5 (counterexample): the claim says every marker-bearing line is
rewritten, but a line whose last marker occurrence starts at column 0 (here
the single line "# ME======", a bare comment with a valid token for "a") is
dropped by the code, while the claim's rewrite would emit a padded comment
line. -/
theorem c5_marker_at_zero_differs :
    alignComments [35, 32, 77, 69, 61, 61, 61, 61, 61, 61, 10] = .ok [] ∧
      alignSpecClaim [35, 32, 77, 69, 61, 61, 61, 61, 61, 61, 10] =
        some [32, 32, 32, 32, 32, 32, 32, 32, 35, 32, 97, 10] ∧
      Except.ok ([] : GoStr) ≠
        (.ok [32, 32, 32, 32, 32, 32, 32, 32, 35, 32, 97, 10] : Except GoErr GoStr) := by
  refine ⟨by rfl, by rfl, by simp⟩

/-- C5 (amended): the aligner computes the target column as
`widest + 8 + (widest mod 4)`, with `widest` the maximum over all lines of
the start column of the last marker occurrence, and rewrites every line whose
last marker occurrence starts at a strictly positive column to its content
padded with spaces up to the target column followed by marker, space and
decoded comment; lines whose last occurrence starts at column 0, like
marker-free lines, are dropped (and a token that fails to decode aborts the
call with an error). -/
theorem c5_align_characterisation (buf : GoStr) :
    alignComments buf =
      match alignSpecAmended buf with
      | some o => .ok o
      | none => .error .corruptInput := by
  unfold alignComments alignSpecAmended
  dsimp only
  unfold widestSpec
  rw [computeWidest_eq_widestSpec]
  rw [renderLines_eq_spec]
  split <;> rfl

/-! ## Claim C3: re-aligning re-encoded output -/

theorem lastIndexHS_cons (a : Nat) (rest : GoStr) :
    lastIndexHS (a :: rest) =
      match lastIndexHS rest with
      | some i => some (i + 1)
      | none =>
        match rest with
        | b :: _ => if a == 35 && b == 32 then some 0 else none
        | [] => none := rfl

theorem lastIndexHS_none (l : GoStr) (h : 35 ∉ l) : lastIndexHS l = none := by
  induction l with
  | nil => rfl
  | cons a rest ih =>
    have ha : a ≠ 35 := by intro he; exact h (he ▸ List.mem_cons_self a rest)
    have hr : lastIndexHS rest = none := ih (fun hm => h (List.mem_cons_of_mem a hm))
    rw [lastIndexHS_cons, hr]
    rcases rest with _ | ⟨b, t⟩
    · rfl
    · simp [ha]

theorem lastIndexHS_marker (c m : GoStr) (hm : 35 ∉ m) :
    lastIndexHS (c ++ [35, 32] ++ m) = some c.length := by
  induction c with
  | nil =>
    have h2 : lastIndexHS (32 :: m) = none := by
      rw [lastIndexHS_cons, lastIndexHS_none m hm]
      rcases m with _ | ⟨b, t⟩
      · rfl
      · simp
    show lastIndexHS (35 :: 32 :: m) = some 0
    rw [lastIndexHS_cons, h2]
    simp
  | cons x c' ih =>
    show lastIndexHS (x :: (c' ++ [35, 32] ++ m)) = some (c'.length + 1)
    rw [lastIndexHS_cons, ih]

theorem take_marker (c m : GoStr) : (c ++ [35, 32] ++ m).take c.length = c := by
  rw [List.append_assoc]
  exact List.take_left c ([35, 32] ++ m)

theorem drop_marker (c m : GoStr) : (c ++ [35, 32] ++ m).drop (c.length + 2) = m := by
  have h : (c ++ [35, 32] ++ m) = (c ++ [35, 32]) ++ m := by
    rw [List.append_assoc]
  rw [h]
  have hlen : (c ++ [35, 32]).length = c.length + 2 := by simp
  rw [← hlen]
  exact List.drop_left (c ++ [35, 32]) m

theorem splitNL_cons (b : Nat) (rest : GoStr) :
    splitNL (b :: rest) =
      match splitNL rest with
      | [] => [[]]
      | p :: ps => if b == 10 then [] :: p :: ps else (b :: p) :: ps := rfl

theorem splitNL_ne_nil (l : GoStr) : splitNL l ≠ [] := by
  rcases l with _ | ⟨b, rest⟩
  · simp [splitNL]
  · rw [splitNL_cons]
    rcases h : splitNL rest with _ | ⟨p, ps⟩
    · simp
    · by_cases hb : (b == 10) = true <;> simp [hb]

theorem splitNL_append (l rest : GoStr) (h : 10 ∉ l) :
    splitNL (l ++ 10 :: rest) = l :: splitNL rest := by
  induction l with
  | nil =>
    show splitNL (10 :: rest) = [] :: splitNL rest
    rw [splitNL_cons]
    rcases hs : splitNL rest with _ | ⟨p, ps⟩
    · exact absurd hs (splitNL_ne_nil rest)
    · simp
  | cons x l' ih =>
    have hx : x ≠ 10 := by intro he; exact h (he ▸ List.mem_cons_self x l')
    show splitNL (x :: (l' ++ 10 :: rest)) = (x :: l') :: splitNL rest
    rw [splitNL_cons, ih (fun hm => h (List.mem_cons_of_mem x hm))]
    simp [hx]

theorem stripCR_eq_self (l : GoStr) (h : l.getLast? ≠ some 13) : stripCR l = l := by
  unfold stripCR
  split
  · rename_i hg
    exact absurd hg h
  · rfl

theorem scannerLines_flatten (ls : List GoStr)
    (h : ∀ l ∈ ls, 10 ∉ l ∧ stripCR l = l) :
    scannerLines ((ls.map (fun l => l ++ [10])).flatten) = ls := by
  have hsplit : splitNL ((ls.map (fun l => l ++ [10])).flatten) = ls ++ [[]] := by
    induction ls with
    | nil => rfl
    | cons l ls' ih =>
      have h10 : 10 ∉ l := (h l (by simp)).1
      have hassoc : (((l :: ls').map (fun l => l ++ [10])).flatten : GoStr) =
          l ++ 10 :: ((ls'.map (fun l => l ++ [10])).flatten) := by
        simp
      rw [hassoc, splitNL_append _ _ h10, ih (fun x hx => h x (by simp [hx]))]
      rfl
  unfold scannerLines
  dsimp only
  rw [hsplit]
  rw [if_pos (by simp), List.dropLast_concat]
  have hid : ∀ l ∈ ls, stripCR l = l := fun l hl => (h l hl).2
  calc ls.map stripCR = ls.map id := List.map_congr_left hid
    _ = ls := List.map_id ls

theorem computeWidest_uniform (ls : List GoStr) (W : Nat)
    (h : ∀ l ∈ ls, lastIndexHS l = some W) :
    ∀ w, computeWidest ls w = if ls.isEmpty then w else max w W := by
  induction ls with
  | nil => intro w; rfl
  | cons line rest ih =>
    intro w
    rw [computeWidest, h line (by simp)]
    rw [ih (fun l hl => h l (by simp [hl]))]
    by_cases he : rest.isEmpty <;>
      simp [he] <;>
      first
        | omega
        | (split <;> omega)

theorem encodeComment_not35 (s : GoStr) : 35 ∉ encodeComment s := by
  intro h
  exact (encodeComment_byte_props s 35 h).1 rfl

theorem encodeComment_not10 (s : GoStr) : 10 ∉ encodeComment s := by
  intro h
  exact (encodeComment_byte_props s 10 h).2.1 rfl

theorem encodeComment_getLast_ne13 (s : GoStr) :
    (encodeComment s).getLast? ≠ some 13 := by
  intro h
  exact (encodeComment_byte_props s 13 (List.mem_of_mem_getLast? h)).2.2 rfl

/-- One line of aligned output: content, marker, space, comment, newline. -/
def alignedLine (c m : GoStr) : GoStr := c ++ [35, 32] ++ m ++ [10]

/-- Aligned text: the concatenation of aligned lines, given as
(content, comment) pairs. -/
def alignedText (ps : List (GoStr × GoStr)) : GoStr :=
  (ps.map (fun p => alignedLine p.1 p.2)).flatten

/-- Modelled from the spec (claim C3): re-encode each decoded trailing
comment of the aligned text back through `encodeComment` (splitting each line
at its last marker occurrence, as the aligner itself would); marker-free
lines are kept unchanged. -/
def reEncodeComments (buf : GoStr) : GoStr :=
  ((scannerLines buf).map (fun line =>
    match lastIndexHS line with
    | some f => line.take f ++ [35, 32] ++ encodeComment (line.drop (f + 2)) ++ [10]
    | none => line ++ [10])).flatten

theorem scanner_aligned (ps : List (GoStr × GoStr))
    (hc : ∀ p ∈ ps, 10 ∉ p.1)
    (hm : ∀ p ∈ ps, p.2 ≠ [] ∧ ∀ b ∈ p.2, b ≠ 10 ∧ b ≠ 13) :
    scannerLines (alignedText ps) = ps.map (fun p => p.1 ++ [35, 32] ++ p.2) := by
  have hshape : ps.map (fun p => alignedLine p.1 p.2) =
      (ps.map (fun p => p.1 ++ [35, 32] ++ p.2)).map (fun l => l ++ [10]) := by
    rw [List.map_map]
    apply List.map_congr_left
    intro p _
    simp [alignedLine]
  unfold alignedText
  rw [hshape]
  apply scannerLines_flatten
  intro l hl
  obtain ⟨p, hp, hpl⟩ := List.mem_map.mp hl
  obtain ⟨hne, hbytes⟩ := hm p hp
  subst hpl
  constructor
  · simp only [List.mem_append, List.mem_cons]
    rintro ((h | h) | h)
    · exact hc p hp h
    · rcases h with h | h
      · omega
      · rcases h with h | h
        · omega
        · cases h
    · exact (hbytes 10 h).1 rfl
  · apply stripCR_eq_self
    have h1 : (p.1 ++ [35, 32] ++ p.2).getLast? = p.2.getLast? := by
      rw [List.append_assoc]
      rw [List.getLast?_append_of_ne_nil _ (by simp [hne])]
      exact List.getLast?_append_of_ne_nil _ hne
    rw [h1]
    rcases hg : p.2.getLast? with _ | b
    · simp
    · have hbm := List.mem_of_mem_getLast? hg
      have := (hbytes b hbm).2
      simp [this]

theorem reEncode_aligned (W : Nat) (ps : List (GoStr × GoStr))
    (hc : ∀ p ∈ ps, p.1.length = W ∧ 10 ∉ p.1)
    (hm : ∀ p ∈ ps, p.2 ≠ [] ∧ ∀ b ∈ p.2, b ≠ 10 ∧ b ≠ 13 ∧ b ≠ 35) :
    reEncodeComments (alignedText ps) =
      ((ps.map (fun p => p.1 ++ [35, 32] ++ encodeComment p.2)).map
        (fun l => l ++ [10])).flatten := by
  unfold reEncodeComments
  rw [scanner_aligned ps (fun p hp => (hc p hp).2)
    (fun p hp => ⟨(hm p hp).1, fun b hb => ⟨((hm p hp).2 b hb).1, ((hm p hp).2 b hb).2.1⟩⟩)]
  rw [List.map_map, List.map_map]
  congr 1
  apply List.map_congr_left
  intro p hp
  have h35 : 35 ∉ p.2 := fun h => ((hm p hp).2 35 h).2.2 rfl
  have hfind : lastIndexHS (p.1 ++ [35, 32] ++ p.2) = some p.1.length :=
    lastIndexHS_marker p.1 p.2 h35
  simp only [Function.comp]
  rw [hfind]
  dsimp only
  rw [take_marker, drop_marker]

theorem renderLines_tokens (target W : Nat) (hW : 0 < W) (ps : List (GoStr × GoStr))
    (hc : ∀ p ∈ ps, p.1.length = W)
    (hm : ∀ p ∈ ps, p.2 ≠ [] ∧ ∀ b ∈ p.2, b < 256) :
    renderLines target (ps.map (fun p => p.1 ++ [35, 32] ++ encodeComment p.2)) =
      .ok ((ps.map (fun p =>
        p.1 ++ List.replicate (target - W) 32 ++ [35, 32] ++ p.2 ++ [10])).flatten) := by
  induction ps with
  | nil => rfl
  | cons p ps' ih =>
    obtain ⟨hne, hb⟩ := hm p (by simp)
    have hlen := hc p (by simp)
    have hfind : lastIndexHS (p.1 ++ [35, 32] ++ encodeComment p.2) = some W := by
      rw [lastIndexHS_marker _ _ (encodeComment_not35 _), hlen]
    rw [List.map_cons, renderLines_cons_some target W _ _ hfind, if_pos hW]
    have hdrop : (p.1 ++ [35, 32] ++ encodeComment p.2).drop (W + 2) =
        encodeComment p.2 := by
      rw [← hlen]
      exact drop_marker _ _
    have htake : (p.1 ++ [35, 32] ++ encodeComment p.2).take W = p.1 := by
      rw [← hlen]
      exact take_marker _ _
    rw [hdrop, decodeComment_encodeComment p.2 hb hne]
    rw [ih (fun q hq => hc q (by simp [hq])) (fun q hq => hm q (by simp [hq]))]
    rw [htake]
    simp [List.flatten_cons]

/-- C3 (amended): re-running the aligner on re-encoded aligned text is not
byte-identical; instead it preserves every line's content and decoded comment
and moves the marker from the common column `W` to `W + 8 + (W mod 4)`.
Stated for text in aligned form: every line is a content part of uniform
width `W > 0` followed by marker, space and a non-empty comment free of
newline, carriage-return and marker bytes. -/
theorem c3_realign_shifts_column (W : Nat) (ps : List (GoStr × GoStr)) (hW : 0 < W)
    (hc : ∀ p ∈ ps, p.1.length = W ∧ 10 ∉ p.1)
    (hm : ∀ p ∈ ps, p.2 ≠ [] ∧ ∀ b ∈ p.2, b < 256 ∧ b ≠ 10 ∧ b ≠ 13 ∧ b ≠ 35) :
    alignComments (reEncodeComments (alignedText ps)) =
      .ok (alignedText (ps.map (fun p =>
        (p.1 ++ List.replicate (8 + W % 4) 32, p.2)))) := by
  rcases ps with _ | ⟨p0, ps'⟩
  · rfl
  · have hm' : ∀ p ∈ p0 :: ps', p.2 ≠ [] ∧ ∀ b ∈ p.2, b ≠ 10 ∧ b ≠ 13 ∧ b ≠ 35 :=
      fun p hp => ⟨(hm p hp).1, fun b hb => ⟨((hm p hp).2 b hb).2.1,
        ((hm p hp).2 b hb).2.2.1, ((hm p hp).2 b hb).2.2.2⟩⟩
    rw [reEncode_aligned W (p0 :: ps') hc hm']
    unfold alignComments
    dsimp only
    have hlines : ∀ l ∈ (p0 :: ps').map (fun p => p.1 ++ [35, 32] ++ encodeComment p.2),
        10 ∉ l ∧ stripCR l = l := by
      intro l hl
      obtain ⟨p, hp, hpl⟩ := List.mem_map.mp hl
      subst hpl
      constructor
      · simp only [List.mem_append, List.mem_cons]
        rintro ((h | h) | h)
        · exact (hc p hp).2 h
        · rcases h with h | h
          · omega
          · rcases h with h | h
            · omega
            · cases h
        · exact encodeComment_not10 p.2 h
      · apply stripCR_eq_self
        have h1 : (p.1 ++ [35, 32] ++ encodeComment p.2).getLast? =
            (encodeComment p.2).getLast? := by
          rw [List.append_assoc]
          rw [List.getLast?_append_of_ne_nil _ (by simp [encodeComment_ne_nil])]
          exact List.getLast?_append_of_ne_nil _ (encodeComment_ne_nil p.2)
        rw [h1]
        exact encodeComment_getLast_ne13 p.2
    rw [scannerLines_flatten _ hlines]
    have hfind : ∀ l ∈ (p0 :: ps').map (fun p => p.1 ++ [35, 32] ++ encodeComment p.2),
        lastIndexHS l = some W := by
      intro l hl
      obtain ⟨p, hp, hpl⟩ := List.mem_map.mp hl
      subst hpl
      rw [lastIndexHS_marker _ _ (encodeComment_not35 _), (hc p hp).1]
    rw [computeWidest_uniform _ W hfind 0]
    simp only [List.map_cons, List.isEmpty_cons, Bool.false_eq_true, if_false]
    have hmax : max 0 W = W := by omega
    rw [hmax, ← List.map_cons (fun p => p.1 ++ [35, 32] ++ encodeComment p.2) p0 ps']
    rw [renderLines_tokens (W + 8 + W % 4) W hW (p0 :: ps')
      (fun p hp => (hc p hp).1)
      (fun p hp => ⟨(hm p hp).1, fun b hb => ((hm p hp).2 b hb).1⟩)]
    congr 1
    have hsub : W + 8 + W % 4 - W = 8 + W % 4 := by omega
    unfold alignedText
    rw [← List.map_cons (fun p => (p.1 ++ List.replicate (8 + W % 4) 32, p.2)) p0 ps']
    rw [List.map_map]
    congr 1
    apply List.map_congr_left
    intro p _
    simp only [Function.comp, alignedLine, hsub]

/-- C3 (counterexample): align is not idempotent.  Aligning the single line
"a # ME======" (token for "a") puts the comment at column 12; re-encoding the
decoded comment and aligning again puts it at column 12 + 8 + (12 mod 4) = 20,
so the second output is not byte-identical to the first. -/
theorem c3_second_align_differs :
    alignComments [97, 32, 35, 32, 77, 69, 61, 61, 61, 61, 61, 61, 10] =
        .ok [97, 32, 32, 32, 32, 32, 32, 32, 32, 32, 32, 32, 35, 32, 97, 10] ∧
      alignComments (reEncodeComments
          [97, 32, 32, 32, 32, 32, 32, 32, 32, 32, 32, 32, 35, 32, 97, 10]) =
        .ok [97, 32, 32, 32, 32, 32, 32, 32, 32, 32, 32, 32, 32, 32, 32, 32,
             32, 32, 32, 32, 35, 32, 97, 10] ∧
      ([97, 32, 32, 32, 32, 32, 32, 32, 32, 32, 32, 32, 32, 32, 32, 32,
        32, 32, 32, 32, 35, 32, 97, 10] : GoStr) ≠
        [97, 32, 32, 32, 32, 32, 32, 32, 32, 32, 32, 32, 35, 32, 97, 10] :=
  ⟨rfl, rfl, by decide⟩

/-- C3 (witness): the amended realignment law at one concrete aligned line
with content "a" padded to width 12 and comment "a". -/
theorem c3_realign_shifts_column_witness :
    alignComments (reEncodeComments (alignedText
        [([97, 32, 32, 32, 32, 32, 32, 32, 32, 32, 32, 32], [97])])) =
      .ok (alignedText
        [([97, 32, 32, 32, 32, 32, 32, 32, 32, 32, 32, 32] ++
          List.replicate (8 + 12 % 4) 32, [97])]) :=
  c3_realign_shifts_column 12
    [([97, 32, 32, 32, 32, 32, 32, 32, 32, 32, 32, 32], [97])]
    (by decide) (by decide) (by decide)
